import Mathlib

/-!
Verification development for the ODR training script (src/main.py).

The script fine-tunes a pretrained backbone for 8-class multi-label ocular
disease detection.  We embed its pure computations (the combined kappa/F1/AUC
metric, the random Gaussian blur transform, the paired forward pass and loss,
the prediction/label accumulators, the per-class AUC summary) as executable
Lean functions over `ℚ`/`ℝ`, and the control flow of `main` as an explicit
event trace.  Machine floats are modelled by exact arithmetic.
-/

namespace ODR

/-! ### Metric evaluator — `metric` (main.py lines 30-36), sklearn semantics -/

/-- Thresholding `y_pred > threshold` (numpy strict comparison), mapped to
the numeric labels 1/0 that sklearn compares against the true labels. -/
def thresholded (threshold : ℚ) (y_pred : List ℚ) : List ℚ :=
  y_pred.map (fun v => if threshold < v then 1 else 0)

/-- Observed agreement `p_o` of `sklearn.metrics.cohen_kappa_score`:
fraction of positions where the two label sequences agree. -/
def observedAgreement (y1 y2 : List ℚ) : ℚ :=
  (((y1.zip y2).filter (fun p => decide (p.1 = p.2))).length : ℚ) / (y1.length : ℚ)

/-- Chance agreement `p_e` of `sklearn.metrics.cohen_kappa_score`:
sum over the distinct labels of the product of the two marginal frequencies. -/
def chanceAgreement (y1 y2 : List ℚ) : ℚ :=
  (((y1 ++ y2).dedup).map
    (fun k => ((y1.count k : ℚ) / (y1.length : ℚ)) * ((y2.count k : ℚ) / (y1.length : ℚ)))).sum

/-- Cohen's kappa, `(p_o - p_e) / (1 - p_e)`, as computed by
`sklearn.metrics.cohen_kappa_score` (main.py line 31). -/
def cohen_kappa_score (y1 y2 : List ℚ) : ℚ :=
  (observedAgreement y1 y2 - chanceAgreement y1 y2) / (1 - chanceAgreement y1 y2)

/-- Global true-positive count over all distinct labels (micro averaging). -/
def truePositives (y1 y2 : List ℚ) : ℚ :=
  (((y1 ++ y2).dedup).map
    (fun k => (((y1.zip y2).filter (fun p => decide (p.1 = k ∧ p.2 = k))).length : ℚ))).sum

/-- Global false-positive count over all distinct labels (micro averaging). -/
def falsePositives (y1 y2 : List ℚ) : ℚ :=
  (((y1 ++ y2).dedup).map
    (fun k => (((y1.zip y2).filter (fun p => decide (p.2 = k ∧ p.1 ≠ k))).length : ℚ))).sum

/-- Global false-negative count over all distinct labels (micro averaging). -/
def falseNegatives (y1 y2 : List ℚ) : ℚ :=
  (((y1 ++ y2).dedup).map
    (fun k => (((y1.zip y2).filter (fun p => decide (p.1 = k ∧ p.2 ≠ k))).length : ℚ))).sum

/-- Micro-averaged F1 score, `2 TP / (2 TP + FP + FN)`, as computed by
`sklearn.metrics.f1_score` with micro averaging (main.py line 32). -/
def f1_score_micro (y1 y2 : List ℚ) : ℚ :=
  2 * truePositives y1 y2 /
    (2 * truePositives y1 y2 + falsePositives y1 y2 + falseNegatives y1 y2)

/-- Contribution of one (positive score, negative score) pair to the AUC:
1 for a correctly ordered pair, 1/2 for a tie, 0 otherwise. -/
def aucPairScore (s t : ℚ) : ℚ := if t < s then 1 else if s = t then 1/2 else 0

/-- `sklearn.metrics.roc_auc_score` on a binary true-label column (positive
class is the label 1) and raw scores.  Returns `none` exactly when the column
holds no positive or no negative sample, where sklearn raises `ValueError`
(the undefined, degenerate case). -/
def roc_auc_score (y_true y_score : List ℚ) : Option ℚ :=
  let pairs := y_true.zip y_score
  let pos := (pairs.filter (fun p => decide (p.1 = 1))).map Prod.snd
  let neg := (pairs.filter (fun p => decide (p.1 ≠ 1))).map Prod.snd
  if pos.length = 0 ∨ neg.length = 0 then none
  else some ((pos.map (fun s => (neg.map (fun t => aucPairScore s t)).sum)).sum /
    ((pos.length : ℚ) * (neg.length : ℚ)))

/-- The `metric` function of main.py (lines 30-36): kappa and micro F1 on the
thresholded predictions, ROC-AUC on the raw scores, and their unweighted mean
as `final_score`.  `none` models the exception propagated out of the AUC
computation. -/
def metric (y_true y_pred : List ℚ) (threshold : ℚ) : Option ℚ :=
  let kappa := cohen_kappa_score y_true (thresholded threshold y_pred)
  let f1 := f1_score_micro y_true (thresholded threshold y_pred)
  match roc_auc_score y_true y_pred with
  | none => none
  | some auc => some ((kappa + f1 + auc) / 3)

/-! ### Random Gaussian blur — `RandomGaussianBlur.__call__` (main.py 14-20) -/

/-- Result of one call of the blur transform: either the input object itself,
or a fresh image produced by `cv2.GaussianBlur` from the (unmutated) input
with the given kernel size and sigma. -/
inductive BlurResult (Image : Type) where
  | unchanged : Image → BlurResult Image
  | blurred : Image → Nat × Nat → ℚ → BlurResult Image
deriving DecidableEq

/-- The image the call was given, carried unchanged through either branch. -/
def BlurResult.inputImage {Image : Type} : BlurResult Image → Image
  | BlurResult.unchanged i => i
  | BlurResult.blurred i _ _ => i

/-- `RandomGaussianBlur.__call__` (main.py lines 15-20): `r1` is the draw of
`np.random.rand()` deciding `do_it`, `r2` the draw used for sigma (both lie in
[0, 1)).  When `r1 > 0.5` the image is blurred with a 23-by-23 kernel and
`sigma = r2 * 1.9 + 0.1`; otherwise the input is returned unchanged. -/
def RandomGaussianBlur {Image : Type} (img : Image) (r1 r2 : ℚ) : BlurResult Image :=
  if r1 > 1/2 then BlurResult.blurred img (23, 23) (r2 * (19/10) + 1/10)
  else BlurResult.unchanged img

/-! ### Paired forward pass, averaged outputs, loss (main.py 89-94, 123-129) -/

/-- Elementwise average of two output vectors, `(left + right) / 2`
(main.py lines 92 and 127). -/
def averageVec {K : Type} [DivisionRing K] (l r : List K) : List K :=
  List.zipWith (fun x y => (x + y) / 2) l r

/-- Batch forward pass (main.py lines 89-92): the model is applied to every
left image and every right image independently, and the two per-sample output
vectors are averaged elementwise. -/
def batchForward {Image K : Type} [DivisionRing K] (net : Image → List K)
    (lefts rights : List Image) : List (List K) :=
  List.zipWith averageVec (lefts.map net) (rights.map net)

/-- Cross-entropy of one sample with probability-style targets, as
`torch.nn.CrossEntropyLoss` computes it for a floating-point target vector:
`-Σ_c target_c * (output_c - log Σ_j exp output_j)`. -/
noncomputable def sampleCrossEntropy (output target : List ℝ) : ℝ :=
  -(List.zipWith (fun tc oc => tc * (oc - Real.log ((output.map Real.exp).sum))) target output).sum

/-- `torch.nn.CrossEntropyLoss` (reduction is the default mean over the
batch) applied to a batch of outputs and targets. -/
noncomputable def crossEntropyLoss (outputs targets : List (List ℝ)) : ℝ :=
  (List.zipWith sampleCrossEntropy outputs targets).sum / (outputs.length : ℝ)

/-- The loss of one training batch (main.py line 94): cross-entropy of the
averaged outputs against the batch labels. -/
noncomputable def trainBatchLoss {Image : Type} (net : Image → List ℝ)
    (lefts rights : List Image) (labels : List (List ℝ)) : ℝ :=
  crossEntropyLoss (batchForward net lefts rights) labels

/-! ### Replaced classification head (main.py 64-67) -/

/-- The logistic sigmoid, `nn.Sigmoid` applied to one activation. -/
noncomputable def sigmoid (x : ℝ) : ℝ := 1 / (1 + Real.exp (-x))

/-- Dot product of a weight row with the feature vector. -/
noncomputable def dotProduct (w x : List ℝ) : ℝ :=
  (List.zipWith (fun a b => a * b) w x).sum

/-- The replaced head `nn.Sequential(nn.Linear(num_features, classes),
nn.Sigmoid())` (main.py lines 65-67): an affine map followed by a sigmoid,
per output class. -/
noncomputable def replacedHead (weights : List (List ℝ)) (bias features : List ℝ) : List ℝ :=
  List.zipWith (fun wRow b => sigmoid (dotProduct wRow features + b)) weights bias

/-! ### Prediction/label accumulators (main.py 81-82, 101-102, 115-116, 132-133) -/

/-- The accumulator pair: starting from two empty sequences (lines 81-82 and
115-116), each batch appends its true labels to the first component and its
detached predictions to the second (lines 101-102 and 132-133). -/
def accumulate {A B : Type} (batches : List (List A × List B)) : List A × List B :=
  batches.foldl (fun acc b => (acc.1 ++ b.1, acc.2 ++ b.2)) ([], [])

/-! ### Per-class AUC summary at epoch end (main.py 108-110 and 139-141) -/

/-- Column `i` of a list of row vectors, `y[:, i]`. -/
def column (rows : List (List ℚ)) (i : Nat) : List ℚ := rows.map (fun r => r.getD i 0)

/-- Evaluates a list of fallible computations in order; the first failure
propagates, as an uncaught Python exception does. -/
def sequenceOpt {A : Type} : List (Option A) → Option (List A)
  | [] => some []
  | o :: rest => o.bind (fun a => (sequenceOpt rest).map (fun l => a :: l))

/-- The list comprehension of main.py lines 108 and 139:
`[roc_auc_score(y_true[:, i], y_pred[:, i]) for i in range(classes)]`. -/
def epochAucs (yTrue yPred : List (List ℚ)) (classes : Nat) : Option (List ℚ) :=
  sequenceOpt ((List.range classes).map
    (fun i => roc_auc_score (column yTrue i) (column yPred i)))

/-- The epoch summary printed on lines 110 and 141: the mean of the per-class
AUCs together with the individual AUCs.  `none` models an aborted run. -/
def meanAucSummary (yTrue yPred : List (List ℚ)) (classes : Nat) : Option (ℚ × List ℚ) :=
  match epochAucs yTrue yPred classes with
  | none => none
  | some aucs => some (aucs.sum / (classes : ℚ), aucs)

/-! ### Event-trace model of the control flow of `main` (main.py 38-141) -/

/-- Observable actions of `main`, in program order.  A forward pass carries
whether it runs under `torch.no_grad()`. -/
inductive Event where
  | forward : Bool → Event
  | zeroGrad : Event
  | backward : Event
  | optStep : Event
  | appendAcc : Event
  | resetAcc : Event
  | metricCall : Event
  | aucSummary : Event
  | checkpointWrite : String → Event
  | checkpointLoad : String → Event
deriving DecidableEq

/-- The single fixed checkpoint path of main.py line 111. -/
def checkpointPath : String := "model/checkpoint.pth"

/-- One training batch (main.py lines 84-106): two gradient-tracking forward
passes, zero the gradients, backpropagate, step the optimizer, append to the
accumulators. -/
def trainBatchEvents : List Event :=
  [Event.forward false, Event.forward false, Event.zeroGrad, Event.backward,
   Event.optStep, Event.appendAcc]

/-- One training epoch (main.py lines 79-111): reset the accumulators, run
every batch, compute the per-class AUC summary, overwrite the checkpoint. -/
def epochEvents (nb : Nat) : List Event :=
  Event.resetAcc :: (List.replicate nb trainBatchEvents).flatten ++
    [Event.aucSummary, Event.checkpointWrite checkpointPath]

/-- One test batch (main.py lines 118-137): two forward passes inside
`torch.no_grad()`, then append to the accumulators.  No optimizer activity. -/
def testBatchEvents : List Event :=
  [Event.forward true, Event.forward true, Event.appendAcc]

/-- The evaluation pass (main.py lines 113-141): reset the accumulators, run
every test batch, compute the per-class AUC summary.  No checkpoint write. -/
def evalEvents (mb : Nat) : List Event :=
  Event.resetAcc :: (List.replicate mb testBatchEvents).flatten ++ [Event.aucSummary]

/-- The optional initial checkpoint load (main.py lines 69-71). -/
def loadEvents : Option String → List Event
  | some p => [Event.checkpointLoad p]
  | none => []

/-- Everything before the evaluation pass: the optional load followed by
`epochs` identical training epochs. -/
def trainPhase (mp : Option String) (epochs nb : Nat) : List Event :=
  loadEvents mp ++ (List.replicate epochs (epochEvents nb)).flatten

/-- The full event trace of `main` for `epochs` epochs, `nb` training batches
per epoch and `mb` test batches. -/
def mainEvents (mp : Option String) (epochs nb mb : Nat) : List Event :=
  trainPhase mp epochs nb ++ evalEvents mb

/-- Effect of one event on the model state: only the optimizer step, the
initial checkpoint load and a gradient-tracking (training-mode) forward pass
may change it; every event of the evaluation pass leaves it intact. -/
def applyEvent {P : Type} (stepFn loadFn trainForward : P → P) (p : P) : Event → P
  | Event.optStep => stepFn p
  | Event.checkpointLoad _ => loadFn p
  | Event.forward false => trainForward p
  | _ => p

/-! ### Command-line arguments (main.py 143-152) -/

/-- The parsed command-line flags (main.py lines 145-150). -/
structure Args where
  model_path : Option String
  epochs : Nat
  batch_size : Nat
  classes : Nat
  lr : ℚ
  momentum : ℚ
deriving DecidableEq

/-- The optimizer configuration: `torch.optim.Adam(net.parameters(),
lr=args.lr)` (main.py line 75) receives only the learning rate. -/
structure AdamConfig where
  lr : ℚ
deriving DecidableEq

/-- Builds the optimizer from the arguments; `args.momentum` is not read. -/
def adamOptimizer (a : Args) : AdamConfig := AdamConfig.mk a.lr

/-- Everything `main` does that depends on the arguments: the checkpoint it
loads, the epoch count, the batch size, the size of the replaced head, the
optimizer configuration, and the event trace. -/
structure RunObservation where
  loadedFrom : Option String
  numEpochs : Nat
  batchSize : Nat
  headClasses : Nat
  optimizerConfig : AdamConfig
  events : List Event
deriving DecidableEq

/-- The observable behaviour of one invocation, given the train/test batch
counts delivered by the external dataset. -/
def observedRun (a : Args) (nb mb : Nat) : RunObservation :=
  RunObservation.mk a.model_path a.epochs a.batch_size a.classes (adamOptimizer a)
    (mainEvents a.model_path a.epochs nb mb)

/-- The argument dictionary echoed by `print(vars(args))` (main.py line 152),
the only place the momentum value reaches the output. -/
def echoedArgs (a : Args) : Args := a

/-! ### Helper lemmas about the event trace -/

theorem count_flatten_replicate {A : Type} [DecidableEq A] (a : A) (n : Nat) (l : List A) :
    List.count a (List.replicate n l).flatten = n * List.count a l := by
  induction n with
  | zero => simp
  | succ m ih =>
    rw [List.replicate_succ, List.flatten_cons, List.count_append, ih, Nat.succ_mul]
    ring

theorem foldl_applyEvent_id {P : Type} (f g h : P → P) (l : List Event)
    (hl : ∀ e ∈ l, ∀ q, applyEvent f g h q e = q) (p : P) :
    l.foldl (applyEvent f g h) p = p := by
  induction l generalizing p with
  | nil => rfl
  | cons e t ih =>
    rw [List.foldl_cons, hl e (List.mem_cons_self e t)]
    exact ih (fun x hx q => hl x (List.mem_cons_of_mem e hx) q) p

theorem applyEvent_evalEvents_id {P : Type} (f g h : P → P) (mb : Nat) :
    ∀ e ∈ evalEvents mb, ∀ q, applyEvent f g h q e = q := by
  intro e he q
  simp only [evalEvents, testBatchEvents, List.mem_cons, List.mem_append, List.mem_flatten,
    List.mem_replicate, List.not_mem_nil, or_false] at he
  rcases he with (rfl | ⟨l, ⟨hmb, rfl⟩, he⟩) | rfl
  · rfl
  · simp only [List.mem_cons, List.not_mem_nil, or_false] at he
    rcases he with rfl | rfl | rfl
    · rfl
    · rfl
    · rfl
  · rfl

theorem count_aucSummary_trainBatch : List.count Event.aucSummary trainBatchEvents = 0 := by
  decide

theorem count_aucSummary_epoch (nb : Nat) : List.count Event.aucSummary (epochEvents nb) = 1 := by
  simp [epochEvents, List.count_cons, List.count_append, count_flatten_replicate,
    count_aucSummary_trainBatch]

theorem count_aucSummary_eval (mb : Nat) : List.count Event.aucSummary (evalEvents mb) = 1 := by
  simp [evalEvents, testBatchEvents, List.count_cons, List.count_append, count_flatten_replicate]

/-! ### Claim theorems on the control flow -/

/-- C1 counterexample: with one epoch, one training batch and one test batch,
the combined kappa/F1/AUC score function (`metric`, main.py lines 30-36) is
called zero times, not the once per epoch plus once for the test split (= 2)
that the claim states; the epoch and test summaries call
`metrics.roc_auc_score` directly instead. -/
theorem metric_never_called_counterexample :
    ¬ List.count Event.metricCall (mainEvents none 1 1 1) = 1 + 1 := by
  decide

/-- C1 (amended): the training/evaluation loop never calls the combined
kappa/F1/AUC score function; it computes the per-class AUC summary (per-class
`roc_auc_score` plus their mean) exactly once per training epoch and once for
the test split. -/
theorem auc_summary_once_per_epoch_and_split (mp : Option String) (E nb mb : Nat) :
    List.count Event.aucSummary (epochEvents nb) = 1
    ∧ List.count Event.aucSummary (evalEvents mb) = 1
    ∧ List.count Event.aucSummary (mainEvents mp E nb mb) = E + 1
    ∧ List.count Event.metricCall (mainEvents mp E nb mb) = 0 := by
  refine ⟨count_aucSummary_epoch nb, count_aucSummary_eval mb, ?_, ?_⟩
  · rw [mainEvents, List.count_append, trainPhase, List.count_append,
      count_flatten_replicate, count_aucSummary_epoch, count_aucSummary_eval]
    cases mp <;> simp [loadEvents]
  · rw [mainEvents, List.count_append, trainPhase, List.count_append, count_flatten_replicate]
    have h1 : List.count Event.metricCall (epochEvents nb) = 0 := by
      simp [epochEvents, trainBatchEvents, List.count_cons, List.count_append,
        count_flatten_replicate]
    have h2 : List.count Event.metricCall (evalEvents mb) = 0 := by
      simp [evalEvents, testBatchEvents, List.count_cons, List.count_append,
        count_flatten_replicate]
    rw [h1, h2]
    cases mp <;> simp [loadEvents]

/-- C5: for a run of `E` epochs the fixed checkpoint path is written exactly
`E` times; each epoch contains exactly one write and it is the very last
action of the epoch, hence after all of that epoch's optimizer steps; no
write occurs inside a training batch or anywhere in the evaluation pass, so
the file always holds the last training epoch's weights. -/
theorem checkpoint_write_per_epoch (mp : Option String) (E nb mb : Nat) (p : String) :
    List.count (Event.checkpointWrite checkpointPath) (mainEvents mp E nb mb) = E
    ∧ List.count (Event.checkpointWrite checkpointPath) (epochEvents nb) = 1
    ∧ (epochEvents nb).getLast? = some (Event.checkpointWrite checkpointPath)
    ∧ List.count (Event.checkpointWrite p) trainBatchEvents = 0
    ∧ List.count (Event.checkpointWrite p) (evalEvents mb) = 0 := by
  have hepoch : List.count (Event.checkpointWrite checkpointPath) (epochEvents nb) = 1 := by
    simp [epochEvents, trainBatchEvents, List.count_cons, List.count_append,
      count_flatten_replicate]
  refine ⟨?_, hepoch, ?_, ?_, ?_⟩
  · rw [mainEvents, List.count_append, trainPhase, List.count_append,
      count_flatten_replicate, hepoch]
    have hev : List.count (Event.checkpointWrite checkpointPath) (evalEvents mb) = 0 := by
      simp [evalEvents, testBatchEvents, List.count_cons, List.count_append,
        count_flatten_replicate]
    rw [hev]
    cases mp <;> simp [loadEvents]
  · have hsplit : epochEvents nb
        = (Event.resetAcc :: ((List.replicate nb trainBatchEvents).flatten ++ [Event.aucSummary]))
          ++ [Event.checkpointWrite checkpointPath] := by
      simp [epochEvents]
    rw [hsplit, List.getLast?_concat]
  · simp [trainBatchEvents]
  · simp [evalEvents, testBatchEvents, List.count_cons, List.count_append,
      count_flatten_replicate]

/-- C8: the evaluation pass contains no optimizer step, no backpropagation
and no gradient-tracking forward pass (all `2 * mb` forward passes run under
`torch.no_grad()`), and folding the state-transition semantics over the full
trace gives exactly the state reached at the end of the training phase: the
parameters after evaluation are those of the last training epoch. -/
theorem eval_pass_preserves_params {P : Type} (stepFn loadFn trainForward : P → P)
    (p : P) (mp : Option String) (E nb mb : Nat) :
    List.foldl (applyEvent stepFn loadFn trainForward) p (mainEvents mp E nb mb)
      = List.foldl (applyEvent stepFn loadFn trainForward) p (trainPhase mp E nb)
    ∧ List.count Event.optStep (evalEvents mb) = 0
    ∧ List.count Event.backward (evalEvents mb) = 0
    ∧ List.count (Event.forward false) (evalEvents mb) = 0
    ∧ List.count (Event.forward true) (evalEvents mb) = 2 * mb := by
  refine ⟨?_, ?_, ?_, ?_, ?_⟩
  · rw [mainEvents, List.foldl_append]
    exact foldl_applyEvent_id _ _ _ _ (applyEvent_evalEvents_id _ _ _ mb) _
  · simp [evalEvents, testBatchEvents, List.count_cons, List.count_append,
      count_flatten_replicate]
  · simp [evalEvents, testBatchEvents, List.count_cons, List.count_append,
      count_flatten_replicate]
  · simp [evalEvents, testBatchEvents, List.count_cons, List.count_append,
      count_flatten_replicate]
  · simp [evalEvents, testBatchEvents, List.count_cons, List.count_append,
      count_flatten_replicate]
    omega

/-- C9: the parsed `--momentum` value is dead: two argument vectors that
agree on every other flag produce identical observable runs (checkpoint load,
epoch count, batch size, head size, optimizer configuration, event trace);
only the echoed argument dictionary can differ. -/
theorem momentum_unused (a b : Args) (nb mb : Nat)
    (h1 : a.model_path = b.model_path) (h2 : a.epochs = b.epochs)
    (h3 : a.batch_size = b.batch_size) (h4 : a.classes = b.classes)
    (h5 : a.lr = b.lr) :
    observedRun a nb mb = observedRun b nb mb := by
  cases a
  cases b
  simp_all [observedRun, adamOptimizer]

/-- C9 witness: two concrete invocations differing only in `--momentum`
observe identically. -/
theorem momentum_unused_witness :
    observedRun (Args.mk none 1 32 8 (1/10000) (9/10)) 1 1
      = observedRun (Args.mk none 1 32 8 (1/10000) (1/2)) 1 1 :=
  momentum_unused (Args.mk none 1 32 8 (1/10000) (9/10))
    (Args.mk none 1 32 8 (1/10000) (1/2)) 1 1 rfl rfl rfl rfl rfl

/-! ### Claim theorems on the blur transform, batch step and head -/

/-- C3: the blur transform returns the input unchanged exactly when the
uniform draw deciding `do_it` is at most 0.5; when the draw exceeds 0.5 and
the sigma draw lies in [0, 1), it returns the image blurred with a 23-by-23
kernel and a sigma in [0.1, 2.0); in both branches the input image is
carried unmutated. -/
theorem randomGaussianBlur_spec {Image : Type} (img : Image) (r1 r2 : ℚ)
    (h0 : 0 ≤ r2) (h1 : r2 < 1) :
    (RandomGaussianBlur img r1 r2 = BlurResult.unchanged img ↔ r1 ≤ 1/2)
    ∧ (1/2 < r1 → ∃ s, RandomGaussianBlur img r1 r2 = BlurResult.blurred img (23, 23) s
        ∧ 1/10 ≤ s ∧ s < 2)
    ∧ (RandomGaussianBlur img r1 r2).inputImage = img := by
  by_cases hgt : r1 > 1/2
  · refine ⟨?_, ?_, ?_⟩
    · rw [RandomGaussianBlur, if_pos hgt]
      constructor
      · intro hcontra
        exact BlurResult.noConfusion hcontra
      · intro hle
        exact absurd hgt (not_lt.mpr hle)
    · intro _
      refine ⟨r2 * (19/10) + 1/10, ?_, ?_, ?_⟩
      · rw [RandomGaussianBlur, if_pos hgt]
      · linarith
      · linarith
    · rw [RandomGaussianBlur, if_pos hgt]
      rfl
  · have hle := not_lt.mp hgt
    refine ⟨?_, ?_, ?_⟩
    · rw [RandomGaussianBlur, if_neg hgt]
      exact iff_of_true rfl hle
    · intro hlt
      exact absurd hlt hgt
    · rw [RandomGaussianBlur, if_neg hgt]
      rfl

/-- C3 witness: at the concrete draws r1 = 3/4, r2 = 1/2 the theorem applies
and the transform blurs. -/
theorem randomGaussianBlur_spec_witness :
    ((0 : ℚ) ≤ 0 ∧ (0 : ℚ) < 1)
    ∧ ((RandomGaussianBlur true (1 : ℚ) 0 = BlurResult.unchanged true ↔ (1 : ℚ) ≤ 1/2)
      ∧ ((1/2 : ℚ) < 1 → ∃ s, RandomGaussianBlur true (1 : ℚ) 0
            = BlurResult.blurred true (23, 23) s ∧ 1/10 ≤ s ∧ s < 2)
      ∧ (RandomGaussianBlur true (1 : ℚ) 0).inputImage = true) :=
  ⟨⟨by decide, by decide⟩, randomGaussianBlur_spec true 1 0 (by decide) (by decide)⟩

/-- C4: per training batch the model runs independently on the left and right
image stacks, the k-th averaged output is the elementwise average of the two
k-th per-eye outputs, the batch loss is the cross-entropy of the averaged
outputs against the batch labels, and the batch performs zero-grad,
backward and optimizer step once each, in that order, after the forwards. -/
theorem train_batch_forward_avg_loss_order {Image : Type} (net : Image → List ℝ)
    (lefts rights : List Image) (labels : List (List ℝ)) (k : Nat) :
    (batchForward net lefts rights)[k]?
        = Option.map₂ (fun x y => averageVec (net x) (net y)) lefts[k]? rights[k]?
    ∧ trainBatchLoss net lefts rights labels
        = crossEntropyLoss (batchForward net lefts rights) labels
    ∧ trainBatchEvents = [Event.forward false, Event.forward false, Event.zeroGrad,
        Event.backward, Event.optStep, Event.appendAcc] := by
  refine ⟨?_, rfl, rfl⟩
  rw [batchForward, List.getElem?_zipWith']
  cases hl : lefts[k]? <;> cases hr : rights[k]? <;>
    simp [List.getElem?_map, hl, hr, Option.map₂]

/-- Any element produced by zipping two lists with a binary function comes
from a pair of elements of the two lists. -/
theorem mem_zipWith {A B C : Type} {f : A → B → C} {c : C} :
    ∀ {l : List A} {r : List B}, c ∈ List.zipWith f l r → ∃ a b, a ∈ l ∧ b ∈ r ∧ c = f a b := by
  intro l
  induction l with
  | nil =>
    intro r h
    simp at h
  | cons a t ih =>
    intro r h
    cases r with
    | nil => simp at h
    | cons b u =>
      rw [List.zipWith_cons_cons] at h
      rcases List.mem_cons.mp h with rfl | h2
      · exact ⟨a, b, List.mem_cons_self a t, List.mem_cons_self b u, rfl⟩
      · rcases ih h2 with ⟨x, y, hx, hy, rfl⟩
        exact ⟨x, y, List.mem_cons_of_mem a hx, List.mem_cons_of_mem b hy, rfl⟩

theorem sigmoid_nonneg (x : ℝ) : 0 ≤ sigmoid x := by
  rw [sigmoid]
  positivity

theorem sigmoid_le_one (x : ℝ) : sigmoid x ≤ 1 := by
  rw [sigmoid, div_le_one (by positivity)]
  linarith [Real.exp_pos (-x)]

theorem replacedHead_mem_unit (weights : List (List ℝ)) (bias features : List ℝ) :
    ∀ x ∈ replacedHead weights bias features, 0 ≤ x ∧ x ≤ 1 := by
  intro x hx
  rcases mem_zipWith hx with ⟨w, b, _, _, rfl⟩
  exact ⟨sigmoid_nonneg _, sigmoid_le_one _⟩

/-- C10: every stored prediction is the average of two outputs of the
sigmoid-terminated replaced head, hence lies in the closed interval [0, 1],
so thresholding at 0.5 is always meaningful. -/
theorem predictions_in_unit_interval (weights : List (List ℝ)) (bias fl fr : List ℝ) :
    (averageVec (replacedHead weights bias fl) (replacedHead weights bias fr)).Forall
      (fun x => 0 ≤ x ∧ x ≤ 1) := by
  rw [List.forall_iff_forall_mem]
  intro x hx
  rcases mem_zipWith hx with ⟨u, v, hu, hv, rfl⟩
  have hu2 := replacedHead_mem_unit weights bias fl u hu
  have hv2 := replacedHead_mem_unit weights bias fr v hv
  constructor
  · linarith [hu2.1, hv2.1]
  · linarith [hu2.2, hv2.2]

/-! ### Claim theorems on the accumulators and the AUC summary -/

theorem accumulate_eq_flatten {A B : Type} (batches : List (List A × List B)) :
    accumulate batches = ((batches.map Prod.fst).flatten, (batches.map Prod.snd).flatten) := by
  have general : ∀ (bs : List (List A × List B)) (acc : List A × List B),
      bs.foldl (fun acc b => (acc.1 ++ b.1, acc.2 ++ b.2)) acc
        = (acc.1 ++ (bs.map Prod.fst).flatten, acc.2 ++ (bs.map Prod.snd).flatten) := by
    intro bs
    induction bs with
    | nil =>
      intro acc
      simp
    | cons b t ih =>
      intro acc
      rw [List.foldl_cons, ih]
      simp [List.append_assoc]
  rw [accumulate, general]
  simp

theorem sum_map_eq_mul {A : Type} (l : List A) (f : A → Nat) (c : Nat)
    (h : ∀ x ∈ l, f x = c) : (l.map f).sum = l.length * c := by
  induction l with
  | nil => simp
  | cons a t ih =>
    rw [List.map_cons, List.sum_cons, ih (fun x hx => h x (List.mem_cons_of_mem a hx)),
      h a (List.mem_cons_self a t), List.length_cons, Nat.succ_mul]
    ring

/-- C6: both accumulators start empty at the head of every training epoch and
of the evaluation pass; after any sequence of batches they are exactly the
index-aligned concatenations of the per-batch labels and predictions, so
their lengths agree whenever every batch is internally aligned, and after N
batches of size B each holds N * B entries. -/
theorem accumulator_reset_and_alignment {A B : Type} (batches : List (List A × List B))
    (Bsz nb mb : Nat) :
    accumulate ([] : List (List A × List B)) = ([], [])
    ∧ (epochEvents nb).head? = some Event.resetAcc
    ∧ (evalEvents mb).head? = some Event.resetAcc
    ∧ accumulate batches = ((batches.map Prod.fst).flatten, (batches.map Prod.snd).flatten)
    ∧ ((∀ x ∈ batches, x.1.length = x.2.length) →
        (accumulate batches).1.length = (accumulate batches).2.length)
    ∧ ((∀ x ∈ batches, x.1.length = Bsz ∧ x.2.length = Bsz) →
        (accumulate batches).1.length = batches.length * Bsz
        ∧ (accumulate batches).2.length = batches.length * Bsz) := by
  refine ⟨rfl, rfl, rfl, accumulate_eq_flatten batches, ?_, ?_⟩
  · intro hlen
    rw [accumulate_eq_flatten]
    have hmaps : batches.map (fun x => x.1.length) = batches.map (fun x => x.2.length) :=
      List.map_congr_left (fun x hx => hlen x hx)
    simp only [List.length_flatten, List.map_map]
    simpa [Function.comp] using congrArg List.sum hmaps
  · intro h
    rw [accumulate_eq_flatten]
    constructor
    · simp only [List.length_flatten, List.map_map]
      exact sum_map_eq_mul batches _ Bsz (fun x hx => (h x hx).1)
    · simp only [List.length_flatten, List.map_map]
      exact sum_map_eq_mul batches _ Bsz (fun x hx => (h x hx).2)

/-- C6 witness: two concrete aligned batches of size one accumulate to
sequences of length 2 * 1. -/
theorem accumulator_reset_and_alignment_witness :
    (∀ x ∈ ([([0], [9]), ([1], [8])] : List (List Nat × List Nat)),
        x.1.length = 1 ∧ x.2.length = 1)
    ∧ (accumulate ([([0], [9]), ([1], [8])] : List (List Nat × List Nat))).1.length = 2 * 1 :=
  ⟨by decide,
    ((accumulator_reset_and_alignment ([([0], [9]), ([1], [8])] : List (List Nat × List Nat))
        1 0 0).2.2.2.2.2 (by decide)).1⟩

theorem roc_auc_degenerate (yt ys : List ℚ) (v : ℚ) (h : ∀ x ∈ yt, x = v) :
    roc_auc_score yt ys = none := by
  rcases eq_or_ne v 1 with rfl | hv
  · have hneg : (yt.zip ys).filter (fun p => decide (p.1 ≠ 1)) = [] := by
      rw [List.filter_eq_nil_iff]
      rintro ⟨a, b⟩ hab
      have ha := (List.of_mem_zip hab).1
      rw [h a ha]
      simp
    have hcond : (((yt.zip ys).filter (fun p => decide (p.1 = 1))).map Prod.snd).length = 0
        ∨ (((yt.zip ys).filter (fun p => decide (p.1 ≠ 1))).map Prod.snd).length = 0 := by
      right
      rw [hneg]
      rfl
    simp only [roc_auc_score]
    exact if_pos hcond
  · have hpos : (yt.zip ys).filter (fun p => decide (p.1 = 1)) = [] := by
      rw [List.filter_eq_nil_iff]
      rintro ⟨a, b⟩ hab
      have ha := (List.of_mem_zip hab).1
      rw [h a ha]
      simp [hv]
    have hcond : (((yt.zip ys).filter (fun p => decide (p.1 = 1))).map Prod.snd).length = 0
        ∨ (((yt.zip ys).filter (fun p => decide (p.1 ≠ 1))).map Prod.snd).length = 0 := by
      left
      rw [hpos]
      rfl
    simp only [roc_auc_score]
    exact if_pos hcond

theorem sequenceOpt_eq_none {A : Type} (l : List (Option A)) (h : none ∈ l) :
    sequenceOpt l = none := by
  induction l with
  | nil => simp at h
  | cons o t ih =>
    rcases List.mem_cons.mp h with rfl | h2
    · rfl
    · cases o <;> simp [sequenceOpt, ih h2]

/-- C7: whenever some class column of the accumulated true labels holds only
one distinct value, the per-class AUC of that column is undefined (`none`,
the uncaught sklearn ValueError), the whole comprehension fails, and the
epoch summary aborts instead of being guarded or replaced by a sentinel. -/
theorem degenerate_auc_aborts (yTrue yPred : List (List ℚ)) (classes i : Nat) (v : ℚ)
    (hi : i < classes) (hcol : ∀ x ∈ column yTrue i, x = v) :
    roc_auc_score (column yTrue i) (column yPred i) = none
    ∧ epochAucs yTrue yPred classes = none
    ∧ meanAucSummary yTrue yPred classes = none := by
  have hauc := roc_auc_degenerate (column yTrue i) (column yPred i) v hcol
  have hseq : epochAucs yTrue yPred classes = none := by
    apply sequenceOpt_eq_none
    rw [List.mem_map]
    exact ⟨i, List.mem_range.mpr hi, hauc⟩
  exact ⟨hauc, hseq, by simp [meanAucSummary, hseq]⟩

/-- C7 witness: with one class and an all-zero true-label column, the epoch
summary aborts. -/
theorem degenerate_auc_aborts_witness :
    ((0 < 1) ∧ ∀ x ∈ column [[0], [0]] 0, x = (0 : ℚ))
    ∧ meanAucSummary [[0], [0]] [[1], [0]] 1 = none :=
  ⟨⟨by decide, by decide⟩,
    (degenerate_auc_aborts [[0], [0]] [[1], [0]] 1 0 0 (by decide) (by decide)).2.2⟩

/-! ### Helper lemmas for the metric evaluator on perfect predictions -/

theorem thresholded_self (l : List ℚ) (hbin : ∀ x ∈ l, x = 0 ∨ x = 1) :
    thresholded (1/2) l = l := by
  induction l with
  | nil => rfl
  | cons a t ih =>
    have ht := ih (fun x hx => hbin x (List.mem_cons_of_mem a hx))
    rw [thresholded, List.map_cons]
    rw [thresholded] at ht
    rw [ht]
    rcases hbin a (List.mem_cons_self a t) with rfl | rfl
    · norm_num
    · norm_num

theorem zip_self_agree_length (l : List ℚ) :
    ((l.zip l).filter (fun p => decide (p.1 = p.2))).length = l.length := by
  induction l with
  | nil => rfl
  | cons a t ih => simp [List.zip_cons_cons, List.filter_cons, ih]

theorem zip_self_both_eq_count (l : List ℚ) (k : ℚ) :
    ((l.zip l).filter (fun p => decide (p.1 = k ∧ p.2 = k))).length = l.count k := by
  induction l with
  | nil => rfl
  | cons a t ih =>
    by_cases hak : a = k
    · subst hak
      simp [List.zip_cons_cons, List.filter_cons, List.count_cons] at ih ⊢
      omega
    · simp [List.zip_cons_cons, List.filter_cons, List.count_cons, hak] at ih ⊢
      omega

theorem zip_self_filter_false (l : List ℚ) (f : ℚ × ℚ → Bool)
    (hf : ∀ a, f (a, a) = false) : (l.zip l).filter f = [] := by
  induction l with
  | nil => rfl
  | cons a t ih => simp [List.zip_cons_cons, List.filter_cons, hf a, ih]

theorem zip_self_filter_eq_map_snd (l : List ℚ) (k : ℚ) :
    (((l.zip l).filter (fun p => decide (p.1 = k))).map Prod.snd)
      = List.replicate (l.count k) k := by
  induction l with
  | nil => rfl
  | cons a t ih =>
    by_cases hak : a = k
    · subst hak
      simp [List.zip_cons_cons, List.filter_cons, ih, List.count_cons, List.replicate_succ]
    · simp [List.zip_cons_cons, List.filter_cons, ih, List.count_cons, hak]

theorem zip_self_filter_ne_one_map_snd (l : List ℚ) (hbin : ∀ x ∈ l, x = 0 ∨ x = 1) :
    (((l.zip l).filter (fun p => decide (p.1 ≠ 1))).map Prod.snd)
      = List.replicate (l.count 0) 0 := by
  induction l with
  | nil => rfl
  | cons a t ih =>
    have ht := ih (fun x hx => hbin x (List.mem_cons_of_mem a hx))
    rcases hbin a (List.mem_cons_self a t) with rfl | rfl
    · simpa [List.zip_cons_cons, List.filter_cons, List.count_cons,
        List.replicate_succ] using ht
    · simpa [List.zip_cons_cons, List.filter_cons, List.count_cons] using ht

theorem count_zero_add_count_one (l : List ℚ) (hbin : ∀ x ∈ l, x = 0 ∨ x = 1) :
    l.count 0 + l.count 1 = l.length := by
  induction l with
  | nil => rfl
  | cons a t ih =>
    have ht := ih (fun x hx => hbin x (List.mem_cons_of_mem a hx))
    have h00 : ((0:ℚ) == 0) = true := by decide
    have h01 : ((0:ℚ) == 1) = false := by decide
    have h10 : ((1:ℚ) == 0) = false := by decide
    have h11 : ((1:ℚ) == 1) = true := by decide
    rcases hbin a (List.mem_cons_self a t) with rfl | rfl
    · simp [List.count_cons, h00, h01]
      omega
    · simp [List.count_cons, h10, h11]
      omega

theorem dedup_doubled_perm (l : List ℚ) (hbin : ∀ x ∈ l, x = 0 ∨ x = 1)
    (h0 : (0:ℚ) ∈ l) (h1 : (1:ℚ) ∈ l) : ((l ++ l).dedup).Perm [0, 1] := by
  refine (List.perm_ext_iff_of_nodup (List.nodup_dedup _) (by decide)).mpr ?_
  intro a
  simp only [List.mem_dedup, List.mem_append, or_self, List.mem_cons,
    List.not_mem_nil, or_false]
  constructor
  · intro ha
    exact hbin a ha
  · rintro (rfl | rfl)
    · exact h0
    · exact h1

theorem sum_map_zero {A : Type} (l : List A) : (l.map (fun _ => (0:ℚ))).sum = 0 := by
  induction l with
  | nil => rfl
  | cons a t ih => simp [ih]

theorem cohen_kappa_self (l : List ℚ) (hbin : ∀ x ∈ l, x = 0 ∨ x = 1)
    (h0 : (0:ℚ) ∈ l) (h1 : (1:ℚ) ∈ l) : cohen_kappa_score l l = 1 := by
  have hlpos : 0 < l.length := List.length_pos.mpr (List.ne_nil_of_mem h0)
  have hnQ : ((l.length : ℚ)) ≠ 0 := (by exact_mod_cast hlpos : (0:ℚ) < (l.length : ℚ)).ne'
  have hpo : observedAgreement l l = 1 := by
    rw [observedAgreement, zip_self_agree_length]
    exact div_self hnQ
  have hperm := dedup_doubled_perm l hbin h0 h1
  have hc0 : 0 < l.count 0 := List.count_pos_iff.mpr h0
  have hc1 : 0 < l.count 1 := List.count_pos_iff.mpr h1
  have haQ : (1:ℚ) ≤ (l.count 0 : ℚ) := by exact_mod_cast hc0
  have hbQ : (1:ℚ) ≤ (l.count 1 : ℚ) := by exact_mod_cast hc1
  have habn : (l.count 0 : ℚ) + (l.count 1 : ℚ) = (l.length : ℚ) := by
    exact_mod_cast count_zero_add_count_one l hbin
  have hnpos : (0:ℚ) < (l.length : ℚ) := by exact_mod_cast hlpos
  have hpe : chanceAgreement l l
      = (l.count 0 : ℚ) / (l.length : ℚ) * ((l.count 0 : ℚ) / (l.length : ℚ))
        + (l.count 1 : ℚ) / (l.length : ℚ) * ((l.count 1 : ℚ) / (l.length : ℚ)) := by
    rw [chanceAgreement, List.Perm.sum_eq (List.Perm.map _ hperm)]
    simp
  have hpelt : chanceAgreement l l < 1 := by
    rw [hpe, div_mul_div_comm, div_mul_div_comm, div_add_div_same,
      div_lt_one (by positivity)]
    nlinarith [haQ, hbQ, habn, mul_pos (lt_of_lt_of_le one_pos haQ)
      (lt_of_lt_of_le one_pos hbQ)]
  rw [cohen_kappa_score, hpo]
  exact div_self (sub_pos.mpr hpelt).ne'

theorem f1_micro_self (l : List ℚ) (hbin : ∀ x ∈ l, x = 0 ∨ x = 1)
    (h0 : (0:ℚ) ∈ l) (h1 : (1:ℚ) ∈ l) : f1_score_micro l l = 1 := by
  have hperm := dedup_doubled_perm l hbin h0 h1
  have htp : truePositives l l = (l.length : ℚ) := by
    rw [truePositives, List.Perm.sum_eq (List.Perm.map _ hperm)]
    simp only [List.map_cons, List.map_nil, List.sum_cons, List.sum_nil,
      zip_self_both_eq_count, add_zero]
    exact_mod_cast count_zero_add_count_one l hbin
  have hfp : falsePositives l l = 0 := by
    rw [falsePositives]
    have hz : ∀ k ∈ (l ++ l).dedup,
        ((((l.zip l).filter (fun p => decide (p.2 = k ∧ p.1 ≠ k))).length : ℚ))
          = (fun _ : ℚ => (0:ℚ)) k := by
      intro k _
      rw [zip_self_filter_false l _ (fun a => by simp)]
      rfl
    rw [List.map_congr_left hz, sum_map_zero]
  have hfn2 : falseNegatives l l = 0 := by
    rw [falseNegatives]
    have hz : ∀ k ∈ (l ++ l).dedup,
        ((((l.zip l).filter (fun p => decide (p.1 = k ∧ p.2 ≠ k))).length : ℚ))
          = (fun _ : ℚ => (0:ℚ)) k := by
      intro k _
      rw [zip_self_filter_false l _ (fun a => by simp)]
      rfl
    rw [List.map_congr_left hz, sum_map_zero]
  have hlpos : 0 < l.length := List.length_pos.mpr (List.ne_nil_of_mem h0)
  have hnpos : (0:ℚ) < (l.length : ℚ) := by exact_mod_cast hlpos
  rw [f1_score_micro, htp, hfp, hfn2, add_zero, add_zero]
  exact div_self (by linarith : (0:ℚ) < 2 * (l.length : ℚ)).ne'

theorem roc_auc_self (l : List ℚ) (hbin : ∀ x ∈ l, x = 0 ∨ x = 1)
    (h0 : (0:ℚ) ∈ l) (h1 : (1:ℚ) ∈ l) : roc_auc_score l l = some 1 := by
  have hpos := zip_self_filter_eq_map_snd l 1
  have hneg := zip_self_filter_ne_one_map_snd l hbin
  have hc0 : 0 < l.count 0 := List.count_pos_iff.mpr h0
  have hc1 : 0 < l.count 1 := List.count_pos_iff.mpr h1
  simp only [roc_auc_score, hpos, hneg]
  have hcond : ¬((List.replicate (l.count 1) (1:ℚ)).length = 0
      ∨ (List.replicate (l.count 0) (0:ℚ)).length = 0) := by
    simp only [List.length_replicate]
    omega
  rw [if_neg hcond, Option.some_inj]
  have h10 : aucPairScore 1 0 = 1 := by
    rw [aucPairScore]
    norm_num
  have key : ((List.replicate (l.count 1) (1:ℚ)).map
      (fun s => ((List.replicate (l.count 0) (0:ℚ)).map (fun t => aucPairScore s t)).sum)).sum
      = (l.count 1 : ℚ) * (l.count 0 : ℚ) := by
    rw [List.map_replicate, List.map_replicate, h10, List.sum_replicate, List.sum_replicate]
    simp [nsmul_eq_mul]
  rw [key, List.length_replicate, List.length_replicate]
  have hx : (0:ℚ) < (l.count 1 : ℚ) * (l.count 0 : ℚ) := by
    have ha : (0:ℚ) < (l.count 1 : ℚ) := by exact_mod_cast hc1
    have hb : (0:ℚ) < (l.count 0 : ℚ) := by exact_mod_cast hc0
    exact mul_pos ha hb
  exact div_self hx.ne'

/-- C2: the metric evaluator returns the unweighted mean of Cohen's kappa and
micro F1 on the predictions thresholded at 0.5 together with the ROC-AUC of
the raw scores; and on perfect binary predictions (y_pred = y_true with both
label values present) kappa, F1 and AUC all equal 1, so the final score is
exactly 1. -/
theorem metric_mean_and_perfect_score :
    (∀ y_true y_pred a, roc_auc_score y_true y_pred = some a →
      metric y_true y_pred (1/2)
        = some ((cohen_kappa_score y_true (thresholded (1/2) y_pred)
            + f1_score_micro y_true (thresholded (1/2) y_pred) + a) / 3))
    ∧ (∀ y, (∀ x ∈ y, x = 0 ∨ x = 1) → (0:ℚ) ∈ y → (1:ℚ) ∈ y →
        metric y y (1/2) = some 1) := by
  constructor
  · intro yt yp a h
    simp only [metric, thresholded, h]
  · intro y hbin h0 h1
    have ht := thresholded_self y hbin
    have hk := cohen_kappa_self y hbin h0 h1
    have hf := f1_micro_self y hbin h0 h1
    have ha := roc_auc_self y hbin h0 h1
    simp only [metric, ht, hk, hf, ha]
    norm_num

/-- C2 witness: on the concrete perfect prediction [0, 1] the metric is 1. -/
theorem metric_perfect_score_witness :
    ((∀ x ∈ ([0, 1] : List ℚ), x = 0 ∨ x = 1) ∧ (0:ℚ) ∈ ([0, 1] : List ℚ)
      ∧ (1:ℚ) ∈ ([0, 1] : List ℚ))
    ∧ metric [0, 1] [0, 1] (1/2) = some 1 :=
  ⟨⟨by decide, by decide, by decide⟩,
    metric_mean_and_perfect_score.2 [0, 1] (by decide) (by decide) (by decide)⟩

end ODR
